import Mathlib

/-!
Verification of the kp-backend job-orchestration and resumable-upload
subsystem.  The definitions below are a shallow embedding of
`Backend/server/backend_skeleton.py` (songs CRUD, resumable uploads,
job dispatch, the SQLite-backed poller) and of
`Backend/progress_tracker.py` (the predictive progress timer).
Machine data is modelled exactly: file names and contents are lists of
code points, SQL rows are records, Python dict/JSON blobs are
association lists, and the Python float formula of the predictive curve
is transcribed over the reals.
-/

namespace KP

/-! ### Association lists

Python dicts and on-disk directories are modelled as association lists;
`assocWrite` overwrites the value of an existing key in place and
otherwise appends the new pair, which is both `dict.__setitem__` and
`open(path, "wb")` in a directory. -/

def assocWrite {α β : Type} [DecidableEq α] : List (α × β) → α → β → List (α × β)
  | [], k, v => [(k, v)]
  | (a, b) :: rest, k, v =>
      if a = k then (k, v) :: rest else (a, b) :: assocWrite rest k v

/-! ### Byte strings and Python's lexicographic string order -/

/-- File names and file contents are byte strings, modelled as lists of
code points.  Python compares `str` (and `pathlib.Path` values that live
in the same directory) lexicographically by code point. -/
abbrev Bytes := List Nat

/-- Strict lexicographic order on byte strings: Python's `<` on `str`. -/
def lexLt : Bytes → Bytes → Bool
  | _, [] => false
  | [], _ :: _ => true
  | a :: as, b :: bs => if a < b then true else if b < a then false else lexLt as bs

/-- The reflexive order `sorted` sorts by: `a ≤ b` iff not `b < a`. -/
def lexLe (a b : Bytes) : Bool := !lexLt b a

/-- Python `s.startswith(pat)`, with the pattern as first argument. -/
def startsWith : Bytes → Bytes → Bool
  | [], _ => true
  | _ :: _, [] => false
  | a :: as, b :: bs => a == b && startsWith as bs

/-! ### Decimal formatting: Python `f"{idx:06d}"` -/

/-- Number of decimal digits, with explicit fuel in the first argument;
fuel `n` is always enough for `n` itself. -/
def numDigitsGo : Nat → Nat → Nat
  | 0, _ => 1
  | f + 1, n => if n < 10 then 1 else numDigitsGo f (n / 10) + 1

/-- Number of decimal digits of `n` (one digit for `0`). -/
def numDigits (n : Nat) : Nat := numDigitsGo n n

/-- The `w` low decimal digits of `n`, most significant first, as ASCII
code points (`48 = '0'`). -/
def digitsW : Nat → Nat → Bytes
  | 0, _ => []
  | w + 1, n => (48 + n / 10 ^ w % 10) :: digitsW w n

/-- Python `f"{n:06d}"`: the decimal digits of `n`, left-padded with
`'0'` to a minimum width of 6 (wider numbers print in full). -/
def pad6 (n : Nat) : Bytes := digitsW (max 6 (numDigits n)) n

/-- The code points of `"chunk-"`. -/
def chunkMark : Bytes := [99, 104, 117, 110, 107, 45]

/-- The code points of `".part"`. -/
def partExt : Bytes := [46, 112, 97, 114, 116]

/-- The staged chunk file name `f"chunk-{idx:06d}.part"` written by
`upload_chunk`. -/
def chunkName (idx : Nat) : Bytes := chunkMark ++ pad6 idx ++ partExt

/-- The code points of `"meta.json"`, the session metadata file written
by `create_upload`. -/
def metaName : Bytes := [109, 101, 116, 97, 46, 106, 115, 111, 110]

/-! ### Upload session directories -/

/-- A per-session scratch directory: file name to contents. -/
abbrev Dir := List (Bytes × Bytes)

/-- `POST /uploads` (`create_upload`): a fresh directory holding only
`meta.json` with the caller-supplied metadata. -/
def newSessionDir (meta : Bytes) : Dir := [(metaName, meta)]

/-- The body of `upload_chunk` after the index header is parsed: write
the request body to `chunk-{idx:06d}.part`, overwriting any previous
chunk at the same index. -/
def appendChunk (d : Dir) (idx : Nat) (body : Bytes) : Dir :=
  assocWrite d (chunkName idx) body

/-- The chunk files of a session directory as `complete_upload` lists
them: the names that start with `"chunk-"` (this excludes `meta.json`). -/
def chunkFiles (d : Dir) : List Bytes :=
  (d.map Prod.fst).filter (startsWith chunkMark)

/-- The assembly step of `complete_upload`: sort the chunk file names
lexicographically (Python's `sorted` on the `Path` objects) and
concatenate the file contents in that order. -/
def assemble (d : Dir) : Bytes :=
  (((chunkFiles d).mergeSort lexLe).map (fun n => (d.lookup n).getD [])).flatten

/-! ### Songs (the `songs` table) -/

/-- A JSON value stored in a metadata blob, as far as the claims observe
it: a string-like value or JSON `null`.  Python's `dict.get` returns
`None` both for an absent key and for a stored `null`, which is why the
two are collapsed into `Option`. -/
abbrev JVal := Option String

/-- A JSON object / Python dict. -/
abbrev JObj := List (String × JVal)

/-- Python `d.get(k)`: `None` when the key is absent, the value (which
may itself be `null`) when present. -/
def jGet (d : JObj) (k : String) : JVal :=
  match d.lookup k with
  | none => none
  | some v => v

/-- Python `e.update(b)`: every key of `b` overwrites or extends `e`. -/
def jUpdate (e b : JObj) : JObj :=
  b.foldl (fun acc kv => assocWrite acc kv.1 kv.2) e

/-- One row of the `songs` table.  `filename` is `TEXT`; the inserts of
this backend always populate it, and Python truthiness treats `""` like
`NULL`, so it is modelled as a plain string. -/
structure Song where
  id : String
  title : JVal
  artist : JVal
  filename : String
  duration : Option ℚ
  metadata : JObj
  created_at : Nat
deriving DecidableEq

/-- `SELECT * FROM songs WHERE id=?` followed by `fetchone`. -/
def findSong (songs : List Song) (id : String) : Option Song :=
  songs.find? (fun s => s.id == id)

/-- `POST /upload` (`upload`): insert a song whose `title`/`artist`
columns are `meta_obj.get("title")`/`meta_obj.get("artist")` and whose
metadata blob is `meta_obj` itself. -/
def uploadSong (songs : List Song) (fileId fname : String) (meta : JObj)
    (now : Nat) : List Song :=
  songs ++ [⟨fileId, jGet meta "title", jGet meta "artist", fname, none, meta, now⟩]

/-- The song insert performed by `complete_upload`: `title`, `artist`
and `duration` are `NULL` and the metadata blob is the empty object. -/
def registerAssembled (songs : List Song) (fileId fname : String)
    (now : Nat) : List Song :=
  songs ++ [⟨fileId, none, none, fname, none, [], now⟩]

/-- `PATCH /songs/<id>` (`song_detail`): read the metadata blob, merge
the request body into it in place, then
`UPDATE songs SET title=?, artist=?, metadata=?` with
`body.get("title", existing.get("title"))` (where `existing` has already
been merged) and likewise for `artist`.  Returns the new table and the
HTTP status. -/
def patchSong (songs : List Song) (id : String) (body : JObj) :
    List Song × Nat :=
  match findSong songs id with
  | none => (songs, 404)
  | some s =>
      let merged := jUpdate s.metadata body
      let newTitle := match body.lookup "title" with
        | some v => v
        | none => jGet merged "title"
      let newArtist := match body.lookup "artist" with
        | some v => v
        | none => jGet merged "artist"
      (songs.map (fun r =>
        if r.id == id then
          { r with title := newTitle, artist := newArtist, metadata := merged }
        else r), 200)

/-- `DELETE /songs/<id>` (`song_detail`): look the row up; when it
exists and its `filename` is truthy, unlink the backing file (a missing
file is tolerated via `except FileNotFoundError: pass`); then
`DELETE FROM songs WHERE id=?`; always answer `204`.  `files` is the
set of file names present under the upload root. -/
def deleteSong (songs : List Song) (files : List String) (id : String) :
    List Song × List String × Nat :=
  let files' := match findSong songs id with
    | some s => if s.filename ≠ "" then files.erase s.filename else files
    | none => files
  (songs.filter (fun s => !(s.id == id)), files', 204)

/-- The song-table states reachable through this subsystem's own write
operations (multipart upload, resumable-upload completion, metadata
patch, delete).  A patch body is a parsed JSON object, so its keys are
distinct. -/
inductive SongsReachable : List Song → Prop where
  | nil : SongsReachable []
  | upload : ∀ {songs} fileId fname meta now, SongsReachable songs →
      SongsReachable (uploadSong songs fileId fname meta now)
  | assembled : ∀ {songs} fileId fname now, SongsReachable songs →
      SongsReachable (registerAssembled songs fileId fname now)
  | patched : ∀ {songs} id body, (body.map Prod.fst).Nodup → SongsReachable songs →
      SongsReachable (patchSong songs id body).1
  | deleted : ∀ {songs} files id, SongsReachable songs →
      SongsReachable (deleteSong songs files id).1

/-- The row invariant maintained by every write path of this backend:
the `title` and `artist` columns always mirror the `"title"` and
`"artist"` keys of the row's metadata blob. -/
def TitleSync (s : Song) : Prop :=
  s.title = jGet s.metadata "title" ∧ s.artist = jGet s.metadata "artist"

/-! ### Server-level upload state -/

/-- The state the resumable-upload endpoints act on: the live session
directories keyed by upload id, the `songs` table, and the assembled
files in the upload root. -/
structure ServerState where
  sessions : List (String × Dir)
  songs : List Song
  files : List String
deriving DecidableEq

/-- `POST /uploads/<upload_id>/complete` (`complete_upload`): `404` when
the session directory does not exist; `400` when it holds no chunk
files; otherwise assemble the chunks in sorted-name order, register the
result as a song (`fname` is the final `f"{file_id}{ext}"` name), delete
the scratch directory, and answer `201` together with the final bytes. -/
def completeUpload (st : ServerState) (uid fileId fname : String)
    (now : Nat) : ServerState × Nat × Option Bytes :=
  match st.sessions.lookup uid with
  | none => (st, 404, none)
  | some d =>
      if (chunkFiles d).isEmpty then (st, 400, none)
      else
        ({ sessions := st.sessions.eraseP (fun kv => kv.1 == uid),
           songs := registerAssembled st.songs fileId fname now,
           files := st.files ++ [fname] },
         201, some (assemble d))

/-! ### Jobs (the `jobs` table), dispatch and the poller -/

/-- One row of the `jobs` table. -/
structure Job where
  id : String
  file_id : String
  model : String
  status : String
  progress : ℚ
  message : String
  created_at : Nat
deriving DecidableEq

/-- `POST /process/<model>/<file_id>` (`start_process`).  The row is
inserted with status `"processing"`, progress `0.0` and message
`"queued"`.  `queueConfigured` is `REDIS_URL and Queue is not None and
Redis is not None`; on that branch the view enqueues (or, if the enqueue
raises, spawns a fallback thread) and then falls off the end of the
function, so Flask receives `None` instead of a response — modelled as
`none`.  Only the `else` branch returns `202` with the job and file
ids.  The last component records whether an in-process worker thread
was spawned. -/
def startProcess (jobs : List Job) (model fileId jobId : String)
    (now : Nat) (queueConfigured enqueueOk : Bool) :
    List Job × Option (Nat × String × String) × Bool :=
  let jobs' := jobs ++ [⟨jobId, fileId, model, "processing", 0, "queued", now⟩]
  if queueConfigured then
    (jobs', none, !enqueueOk)
  else
    (jobs', some (202, jobId, fileId), true)

/-- `SELECT * FROM jobs WHERE id=?` followed by `fetchone`. -/
def findJob (jobs : List Job) (id : String) : Option Job :=
  jobs.find? (fun j => j.id == id)

/-- The poller's read:
`SELECT id, file_id, model FROM jobs WHERE status='queued' ORDER BY
created_at LIMIT 1`. -/
def selectOldestQueued (jobs : List Job) : Option Job :=
  ((jobs.filter (fun j => j.status == "queued")).mergeSort
      (fun a b => decide (a.created_at ≤ b.created_at))).head?

/-- The poller's separate, unconditional write:
`UPDATE jobs SET status='processing', message='taken by poller' WHERE
id=?`. -/
def markProcessing (jobs : List Job) (id : String) : List Job :=
  jobs.map fun j =>
    if j.id == id then { j with status := "processing", message := "taken by poller" }
    else j

/-- `UPDATE jobs SET progress=?, message=? WHERE id=?`. -/
def updateProgress (jobs : List Job) (id : String) (prog : ℚ)
    (msg : String) : List Job :=
  jobs.map fun j =>
    if j.id == id then { j with progress := prog, message := msg } else j

/-- `UPDATE jobs SET status='completed', progress=1.0, message='done'`. -/
def markCompleted (jobs : List Job) (id : String) : List Job :=
  jobs.map fun j =>
    if j.id == id then { j with status := "completed", progress := 1, message := "done" }
    else j

/-- `UPDATE jobs SET status='failed', message=str(e) WHERE id=?` — the
progress column is left as it was. -/
def markFailed (jobs : List Job) (id : String) (msg : String) : List Job :=
  jobs.map fun j =>
    if j.id == id then { j with status := "failed", message := msg } else j

/-- The observable behaviour of one `background_process` run: how many
iterations of the five-stage simulated-work loop completed before
control left the `try` block, and — when the run raised — the exception
text.  `none` means the run reached the final `completed` update. -/
structure BgWork where
  stages : Nat
  oops : Option String
deriving DecidableEq

/-- The progress updates of the simulated-work loop: iteration `i` sets
`progress = i/5` and `message = f"stage {i}"`. -/
def applyStages (jobs : List Job) (id : String) : Nat → List Job
  | 0 => jobs
  | k + 1 => updateProgress (applyStages jobs id k) id ((k + 1 : ℚ) / 5)
      ("stage " ++ toString (k + 1))

/-- `background_process(job_id, ...)`: on success all five stage updates
run and the job is marked `completed`; when the body raises after
`stages` loop iterations, the `except` clause marks the job `failed`
with `str(e)` as its message and the exception stops there. -/
def backgroundRun (jobs : List Job) (id : String) (w : BgWork) : List Job :=
  match w.oops with
  | none => markCompleted (applyStages jobs id 5) id
  | some e => markFailed (applyStages jobs id (min w.stages 5)) id e

/-- One iteration of `job_poller`: claim via the separate select and
update, then run `background_process` synchronously.  Both the
`try/except Exception: pass` around `background_process` and the outer
`try` of the loop swallow every exception, so an iteration is a total
function on the store and the loop always reaches its next iteration. -/
def pollerIteration (jobs : List Job) (work : String → BgWork) : List Job :=
  match selectOldestQueued jobs with
  | none => jobs
  | some j => backgroundRun (markProcessing jobs j.id) j.id (work j.id)

/-! ### Two pollers interleaving on one store (claim C4)

The claim step of `job_poller` is two separate store operations — the
`SELECT` and the `UPDATE`.  `ClaimPhase` is one poller's position inside
its claim step, and `runSched` executes two pollers against a shared
store under an explicit interleaving. -/

inductive ClaimPhase where
  | toSelect : ClaimPhase
  | toMark : Option Job → ClaimPhase
  | finished : Option Job → ClaimPhase
deriving DecidableEq

/-- One atomic store operation of one poller's claim step. -/
def claimStepOnce : List Job → ClaimPhase → List Job × ClaimPhase
  | jobs, .toSelect => (jobs, .toMark (selectOldestQueued jobs))
  | jobs, .toMark (some j) => (markProcessing jobs j.id, .finished (some j))
  | jobs, .toMark none => (jobs, .finished none)
  | jobs, .finished r => (jobs, .finished r)

/-- Two pollers `A` and `B` sharing one job store. -/
structure TwoPollers where
  jobs : List Job
  pa : ClaimPhase
  pb : ClaimPhase
deriving DecidableEq

/-- Run one atomic action of poller `A` (`false`) or `B` (`true`). -/
def stepSched (st : TwoPollers) (who : Bool) : TwoPollers :=
  if who then
    { st with jobs := (claimStepOnce st.jobs st.pb).1,
              pb := (claimStepOnce st.jobs st.pb).2 }
  else
    { st with jobs := (claimStepOnce st.jobs st.pa).1,
              pa := (claimStepOnce st.jobs st.pa).2 }

/-- Execute an interleaving schedule. -/
def runSched (st : TwoPollers) (sched : List Bool) : TwoPollers :=
  sched.foldl stepSched st

/-! ### Predictive progress (`progress_tracker.py`) -/

/-- The sigmoid of `_start_predictive_progress` at elapsed time `t` with
estimated duration `T`:
`t_normalized = (elapsed / estimated_time) * 12 - 6` and
`progress = 95 / (1 + 2.718 ** (-t_normalized))`.  Python's float `**`
is real exponentiation, transcribed over `ℝ`. -/
noncomputable def predictiveProgress (t T : ℝ) : ℝ :=
  95 / (1 + (2.718 : ℝ) ^ (-(t / T * 12 - 6)))

/-- `emit_progress` clamps the emitted percentage into `[0, 100]` via
`min(100, max(0, progress))`. -/
noncomputable def emitClamp (p : ℝ) : ℝ := min 100 (max 0 p)

/-- `complete_separation` emits the literal value `100` (the elapsed
time only decorates the message), clamped by `emit_progress`. -/
noncomputable def completeSeparationEmit (_elapsed : ℝ) : ℝ := emitClamp 100

/-- The elapsed time at the `k`-th iteration of the predictive timer
loop, which sleeps 0.5 s between iterations. -/
def tickTime (k : Nat) : ℚ := k / 2

/-- The sigmoid sampled at the `k`-th loop iteration. -/
noncomputable def progressAt (T : ℚ) (k : Nat) : ℝ :=
  predictiveProgress ((k : ℝ) / 2) (T : ℝ)

/-- The runs of the `update_progress` loop of
`_start_predictive_progress`, from iteration `k` with throttle state
`last_progress = last`, together with the list of
`(elapsed, progress)` pairs it emits.  The loop breaks exactly when
`elapsed >= estimated_time`; otherwise it emits when the sigmoid has
advanced by at least one percentage point since the last emission.  The
loop body consults nothing else — in particular no completion flag. -/
inductive PredRun : ℚ → Nat → ℝ → List (ℚ × ℝ) → Prop where
  | stop : ∀ {T : ℚ} {k : Nat} {last : ℝ}, T ≤ tickTime k →
      PredRun T k last []
  | emit : ∀ {T : ℚ} {k : Nat} {last : ℝ} {es}, tickTime k < T →
      1 ≤ progressAt T k - last →
      PredRun T (k + 1) (progressAt T k) es →
      PredRun T k last ((tickTime k, progressAt T k) :: es)
  | skip : ∀ {T : ℚ} {k : Nat} {last : ℝ} {es}, tickTime k < T →
      progressAt T k - last < 1 →
      PredRun T (k + 1) last es →
      PredRun T k last es

/-! ### Proof-layer definitions -/

/-- The numeric value of a digit string (proof device used to invert
`pad6`). -/
def valc (l : Bytes) : Nat := l.foldl (fun a c => a * 10 + (c - 48)) 0

/-- The session directory obtained by creating a session with metadata
`meta` and then running a sequence of chunk appends
`(index, body)` in order. -/
def runAppends (meta : Bytes) (apps : List (Nat × Bytes)) : Dir :=
  apps.foldl (fun d p => appendChunk d p.1 p.2) (newSessionDir meta)

/-- The canonical chunk-append sequence supplying each index in
`[0, n)` exactly once, index `i` carrying `content i`. -/
def canonApps (n : Nat) (content : Nat → Bytes) : List (Nat × Bytes) :=
  (List.range n).map (fun i => (i, content i))

/-- One more chunk than `10 ^ 6`: the first session size at which the
fixed-width-6 zero padding of the chunk file names stops agreeing with
numeric order. -/
def bigN : Nat := 10 ^ 6 + 1

/-- Chunk contents for the `bigN`-chunk counterexample session: all
chunks are empty except chunk `999999` (one byte `1`) and chunk
`1000000` (one byte `2`). -/
def bigContent (i : Nat) : Bytes :=
  if i = 999999 then [1] else if i = 1000000 then [2] else []

/-- Spec scenario 1: three chunks of sizes 4, 4 and 8 bytes. -/
def demoContent (i : Nat) : Bytes :=
  if i = 0 then [10, 11, 12, 13]
  else if i = 1 then [20, 21, 22, 23]
  else [30, 31, 32, 33, 34, 35, 36, 37]

/-- Spec scenario 1: the three chunks appended in order `[1, 0, 2]`. -/
def demoApps : List (Nat × Bytes) :=
  [(1, demoContent 1), (0, demoContent 0), (2, demoContent 2)]

/-- A freshly queued Job row (as the poller can find it in the store),
with the given id and creation time. -/
def qJob (id : String) (created : Nat) : Job :=
  ⟨id, "f1", "demucs", "queued", 0, "queued", created⟩

/-- The cumulative effect of the first `k` simulated-work progress
updates of `background_process` on one row. -/
def stageUpd : Nat → Job → Job
  | 0, r => r
  | k + 1, r =>
      { stageUpd k r with
        progress := (k + 1 : ℚ) / 5,
        message := "stage " ++ toString (k + 1) }

/-- Spec scenario 4: a Processor that raises `RuntimeError("boom")` on
the first job and succeeds on any other. -/
def workDemo (id : String) : BgWork :=
  if id == "job-1" then ⟨0, some "boom"⟩ else ⟨5, none⟩

/-! ### Lemmas: the lexicographic order -/

theorem lexLt_irrefl : ∀ a : Bytes, lexLt a a = false := by
  intro a
  induction a with
  | nil => rfl
  | cons x xs ih => simp [lexLt, ih]

theorem lexLt_trans : ∀ {a b c : Bytes}, lexLt a b = true → lexLt b c = true →
    lexLt a c = true := by
  intro a
  induction a with
  | nil =>
    intro b c hab hbc
    cases b with
    | nil => simp [lexLt] at hab
    | cons y ys =>
      cases c with
      | nil => simp [lexLt] at hbc
      | cons z zs => simp [lexLt]
  | cons x xs ih =>
    intro b c hab hbc
    cases b with
    | nil => simp [lexLt] at hab
    | cons y ys =>
      cases c with
      | nil => simp [lexLt] at hbc
      | cons z zs =>
        simp only [lexLt] at hab hbc ⊢
        rcases Nat.lt_trichotomy x y with hxy | hxy | hxy
        · rcases Nat.lt_trichotomy y z with hyz | hyz | hyz
          · simp [Nat.lt_trans hxy hyz]
          · subst hyz; simp [hxy]
          · simp [hyz, Nat.lt_asymm hyz] at hbc
        · subst hxy
          rcases Nat.lt_trichotomy x z with hyz | hyz | hyz
          · simp [hyz]
          · subst hyz
            simp [Nat.lt_irrefl] at hab hbc ⊢
            exact ih hab hbc
          · simp [hyz, Nat.lt_asymm hyz] at hbc
        · simp [hxy, Nat.lt_asymm hxy] at hab

theorem lexLt_total3 : ∀ a b : Bytes, lexLt a b = true ∨ a = b ∨ lexLt b a = true := by
  intro a
  induction a with
  | nil =>
    intro b
    cases b with
    | nil => exact Or.inr (Or.inl rfl)
    | cons y ys => exact Or.inl (by simp [lexLt])
  | cons x xs ih =>
    intro b
    cases b with
    | nil => exact Or.inr (Or.inr (by simp [lexLt]))
    | cons y ys =>
      rcases Nat.lt_trichotomy x y with hxy | hxy | hxy
      · exact Or.inl (by simp [lexLt, hxy])
      · subst hxy
        rcases ih ys with h | h | h
        · exact Or.inl (by simp [lexLt, h])
        · exact Or.inr (Or.inl (by rw [h]))
        · exact Or.inr (Or.inr (by simp [lexLt, h]))
      · exact Or.inr (Or.inr (by simp [lexLt, hxy]))

theorem lexLt_asymm {a b : Bytes} (h : lexLt a b = true) : lexLt b a = false := by
  by_contra hc
  have hba : lexLt b a = true := by
    cases hx : lexLt b a with
    | true => rfl
    | false => exact absurd hx hc
  have := lexLt_trans h hba
  rw [lexLt_irrefl] at this
  exact Bool.false_ne_true this

theorem lexLe_of_lexLt {a b : Bytes} (h : lexLt a b = true) : lexLe a b = true := by
  unfold lexLe
  rw [lexLt_asymm h]
  rfl

theorem lexLe_refl (a : Bytes) : lexLe a a = true := by
  unfold lexLe
  rw [lexLt_irrefl]
  rfl

theorem lexLe_total : ∀ a b : Bytes, (lexLe a b || lexLe b a) = true := by
  intro a b
  rcases lexLt_total3 a b with h | h | h
  · rw [lexLe_of_lexLt h]; simp
  · subst h; rw [lexLe_refl]; simp
  · rw [lexLe_of_lexLt h]; simp

theorem lexLe_trans : ∀ {a b c : Bytes}, lexLe a b = true → lexLe b c = true →
    lexLe a c = true := by
  intro a b c hab hbc
  unfold lexLe at hab hbc ⊢
  rw [Bool.not_eq_true'] at hab hbc ⊢
  by_contra hc
  have hca : lexLt c a = true := by
    cases hx : lexLt c a with
    | true => rfl
    | false => exact absurd hx hc
  rcases lexLt_total3 a b with h | h | h
  · have := lexLt_trans hca h
    rw [hbc] at this
    exact Bool.false_ne_true this
  · subst h
    rw [hca] at hbc
    simp at hbc
  · rw [h] at hab
    simp at hab

theorem lexLe_antisymm : ∀ {a b : Bytes}, lexLe a b = true → lexLe b a = true →
    a = b := by
  intro a b hab hba
  unfold lexLe at hab hba
  rw [Bool.not_eq_true'] at hab hba
  rcases lexLt_total3 a b with h | h | h
  · rw [h] at hba; exact absurd hba (by simp)
  · exact h
  · rw [h] at hab; exact absurd hab (by simp)

/-- Appending a common front does not change the comparison. -/
theorem lexLt_append_same : ∀ (p u v : Bytes),
    lexLt (p ++ u) (p ++ v) = lexLt u v := by
  intro p
  induction p with
  | nil => intro u v; rfl
  | cons x xs ih => intro u v; simp [lexLt, ih]

/-! ### Lemmas: decimal formatting -/

theorem numDigitsGo_le : ∀ (f n k : Nat), 1 ≤ k → n < 10 ^ k →
    numDigitsGo f n ≤ k := by
  intro f
  induction f with
  | zero => intro n k hk _; simpa [numDigitsGo] using hk
  | succ f ih =>
    intro n k hk hn
    by_cases h10 : n < 10
    · simpa [numDigitsGo, h10] using hk
    · have hn10 : 10 ≤ n := Nat.le_of_not_lt h10
      have hk2 : 2 ≤ k := by
        by_contra hlt
        have hk1 : k = 1 := by omega
        subst hk1
        simp at hn
        omega
      have hdiv : n / 10 < 10 ^ (k - 1) := by
        have : n < 10 ^ (k - 1) * 10 := by
          have : 10 ^ (k - 1) * 10 = 10 ^ k := by
            rw [← pow_succ]
            congr 1
            omega
          omega
        exact (Nat.div_lt_iff_lt_mul (by norm_num)).2 this
      have := ih (n / 10) (k - 1) (by omega) hdiv
      simp only [numDigitsGo, h10, if_false]
      omega

theorem lt_pow_numDigitsGo : ∀ (f n : Nat), n ≤ f → n < 10 ^ numDigitsGo f n := by
  intro f
  induction f with
  | zero =>
    intro n hn
    interval_cases n
    simp [numDigitsGo]
  | succ f ih =>
    intro n hn
    by_cases h10 : n < 10
    · simp [numDigitsGo, h10]
    · have hn10 : 10 ≤ n := Nat.le_of_not_lt h10
      have hrec : n / 10 ≤ f := by omega
      have := ih (n / 10) hrec
      simp only [numDigitsGo, h10, if_false]
      have hmod := Nat.div_add_mod n 10
      have hm : n % 10 < 10 := Nat.mod_lt _ (by norm_num)
      rw [pow_succ]
      omega

theorem lt_pow_numDigits (n : Nat) : n < 10 ^ numDigits n :=
  lt_pow_numDigitsGo n n (Nat.le_refl n)

theorem pad6_eq_of_lt (n : Nat) (h : n < 10 ^ 6) : pad6 n = digitsW 6 n := by
  unfold pad6
  have h6 : numDigits n ≤ 6 := numDigitsGo_le n n 6 (by norm_num) h
  rw [Nat.max_eq_left h6]

/-- The `w` low digits only depend on `n` modulo `10 ^ w`. -/
theorem digitsW_mod : ∀ (w n : Nat), digitsW w (n % 10 ^ w) = digitsW w n := by
  intro w
  induction w with
  | zero => intro n; rfl
  | succ w ih =>
    intro n
    have hd : (10 : Nat) ^ (w + 1) = 10 ^ w * 10 := pow_succ 10 w
    have hhead : n % 10 ^ (w + 1) / 10 ^ w % 10 = n / 10 ^ w % 10 := by
      rw [hd, Nat.mod_mul_right_div_self, Nat.mod_mod_of_dvd _ (dvd_refl 10)]
    have htail : digitsW w (n % 10 ^ (w + 1)) = digitsW w n := by
      calc digitsW w (n % 10 ^ (w + 1))
          = digitsW w (n % 10 ^ (w + 1) % 10 ^ w) := (ih _).symm
        _ = digitsW w (n % 10 ^ w) := by
            rw [Nat.mod_mod_of_dvd _ (pow_dvd_pow 10 (Nat.le_succ w))]
        _ = digitsW w n := ih n
    simp only [digitsW, hhead, htail]

/-- A width-`w` digit block compares like the numbers it encodes, for
any suffixes. -/
theorem digitsW_append_lt : ∀ (w i j : Nat) (s t : Bytes), i < j → j < 10 ^ w →
    lexLt (digitsW w i ++ s) (digitsW w j ++ t) = true := by
  intro w
  induction w with
  | zero => intro i j s t hij hj; simp at hj; omega
  | succ w ih =>
    intro i j s t hij hj
    have hpow : (0 : Nat) < 10 ^ w := pow_pos (by norm_num) w
    have hjq : j / 10 ^ w < 10 := by
      apply (Nat.div_lt_iff_lt_mul hpow).2
      have hps : (10 : Nat) ^ (w + 1) = 10 ^ w * 10 := pow_succ 10 w
      omega
    have hiq_le : i / 10 ^ w ≤ j / 10 ^ w := Nat.div_le_div_right (le_of_lt hij)
    have hqi : i / 10 ^ w % 10 = i / 10 ^ w :=
      Nat.mod_eq_of_lt (lt_of_le_of_lt hiq_le hjq)
    have hqj : j / 10 ^ w % 10 = j / 10 ^ w := Nat.mod_eq_of_lt hjq
    simp only [digitsW, List.cons_append, lexLt, hqi, hqj]
    rcases lt_or_eq_of_le hiq_le with hlt | heq
    · rw [if_pos (by omega)]
    · rw [heq, if_neg (by omega), if_neg (by omega)]
      rw [← digitsW_mod w i, ← digitsW_mod w j]
      apply ih
      · have h1 := Nat.div_add_mod i (10 ^ w)
        have h2 := Nat.div_add_mod j (10 ^ w)
        rw [heq] at h1
        omega
      · exact Nat.mod_lt _ hpow

theorem valc_digitsW : ∀ (w n acc : Nat),
    List.foldl (fun a c => a * 10 + (c - 48)) acc (digitsW w n)
      = acc * 10 ^ w + n % 10 ^ w := by
  intro w
  induction w with
  | zero => intro n acc; simp [digitsW, Nat.mod_one]
  | succ w ih =>
    intro n acc
    simp only [digitsW, List.foldl_cons]
    rw [ih]
    have hd : 48 + n / 10 ^ w % 10 - 48 = n / 10 ^ w % 10 := by omega
    rw [hd, Nat.mod_pow_succ, pow_succ]
    ring

theorem valc_pad6 (n : Nat) : valc (pad6 n) = n := by
  unfold valc pad6
  rw [valc_digitsW]
  have hlt : n < 10 ^ max 6 (numDigits n) :=
    lt_of_lt_of_le (lt_pow_numDigits n)
      (Nat.pow_le_pow_right (by norm_num) (le_max_right _ _))
  simp [Nat.mod_eq_of_lt hlt]

theorem pad6_inj {m n : Nat} (h : pad6 m = pad6 n) : m = n := by
  have hm := valc_pad6 m
  rw [h, valc_pad6] at hm
  omega

theorem chunkName_inj {i j : Nat} (h : chunkName i = chunkName j) : i = j := by
  unfold chunkName at h
  have h1 := List.append_cancel_right h
  have h2 := List.append_cancel_left h1
  exact pad6_inj h2

theorem chunkName_lt {i j : Nat} (hij : i < j) (hj : j < 10 ^ 6) :
    lexLt (chunkName i) (chunkName j) = true := by
  unfold chunkName
  rw [pad6_eq_of_lt i (lt_trans hij hj), pad6_eq_of_lt j hj]
  rw [List.append_assoc, List.append_assoc, lexLt_append_same]
  exact digitsW_append_lt 6 i j partExt partExt hij hj

theorem startsWith_append : ∀ p r : Bytes, startsWith p (p ++ r) = true := by
  intro p
  induction p with
  | nil => intro r; rfl
  | cons a as ih => intro r; simp [startsWith, ih]

theorem chunkName_isChunk (i : Nat) : startsWith chunkMark (chunkName i) = true := by
  rw [chunkName, List.append_assoc]
  exact startsWith_append _ _

theorem metaName_not_chunk : startsWith chunkMark metaName = false := by decide

theorem chunkName_ne_meta (i : Nat) : chunkName i ≠ metaName := by
  intro h
  have h1 := chunkName_isChunk i
  rw [h, metaName_not_chunk] at h1
  simp at h1

/-! ### Lemmas: association lists -/

theorem assocWrite_lookup_self {α β : Type} [DecidableEq α] [BEq α] [LawfulBEq α] :
    ∀ (l : List (α × β)) (k : α) (v : β),
    (assocWrite l k v).lookup k = some v := by
  intro l
  induction l with
  | nil => intro k v; simp [assocWrite, List.lookup]
  | cons p rest ih =>
    intro k v
    obtain ⟨a, b⟩ := p
    by_cases h : a = k
    · subst h
      simp [assocWrite, List.lookup]
    · simp only [assocWrite, if_neg h, List.lookup]
      rw [beq_eq_false_iff_ne.mpr (Ne.symm h)]
      exact ih k v

theorem assocWrite_lookup_ne {α β : Type} [DecidableEq α] [BEq α] [LawfulBEq α] :
    ∀ (l : List (α × β)) (k m : α) (v : β), m ≠ k →
    (assocWrite l k v).lookup m = l.lookup m := by
  intro l
  induction l with
  | nil =>
    intro k m v hmk
    simp [assocWrite, List.lookup, beq_eq_false_iff_ne.mpr hmk]
  | cons p rest ih =>
    intro k m v hmk
    obtain ⟨a, b⟩ := p
    by_cases h : a = k
    · subst h
      simp only [assocWrite, if_pos rfl, List.lookup]
      rw [beq_eq_false_iff_ne.mpr hmk]
    · simp only [assocWrite, if_neg h, List.lookup]
      cases hma : m == a with
      | true => rfl
      | false => exact ih k m v hmk

theorem assocWrite_keys_fresh {α β : Type} [DecidableEq α] :
    ∀ (l : List (α × β)) (k : α) (v : β), k ∉ l.map Prod.fst →
    (assocWrite l k v).map Prod.fst = l.map Prod.fst ++ [k] := by
  intro l
  induction l with
  | nil => intro k v _; rfl
  | cons p rest ih =>
    intro k v hk
    obtain ⟨a, b⟩ := p
    simp only [List.map_cons, List.mem_cons] at hk
    push_neg at hk
    simp only [assocWrite, if_neg (Ne.symm hk.1)]
    simp only [List.map_cons, List.cons_append]
    rw [ih k v hk.2]

/-! ### Lemmas: the directory after a sequence of chunk appends -/

theorem foldl_appendChunk_lookup_ne :
    ∀ (apps : List (Nat × Bytes)) (d : Dir) (m : Bytes),
    (∀ p ∈ apps, chunkName p.1 ≠ m) →
    (apps.foldl (fun d p => appendChunk d p.1 p.2) d).lookup m = d.lookup m := by
  intro apps
  induction apps with
  | nil => intro d m _; rfl
  | cons q rest ih =>
    intro d m hne
    simp only [List.foldl_cons]
    rw [ih _ m (fun p hp => hne p (List.mem_cons_of_mem q hp))]
    exact assocWrite_lookup_ne _ _ _ _
      (fun hc => hne q (List.mem_cons_self q rest) hc.symm)

theorem foldl_appendChunk_lookup :
    ∀ (apps : List (Nat × Bytes)) (d : Dir) (i : Nat) (c : Bytes),
    (i, c) ∈ apps → (apps.map Prod.fst).Nodup →
    (apps.foldl (fun d p => appendChunk d p.1 p.2) d).lookup (chunkName i)
      = some c := by
  intro apps
  induction apps with
  | nil => intro d i c hmem _; simp at hmem
  | cons q rest ih =>
    intro d i c hmem hnd
    simp only [List.map_cons, List.nodup_cons] at hnd
    simp only [List.foldl_cons]
    rcases List.mem_cons.mp hmem with heq | hmem'
    · subst heq
      have hfresh : ∀ p ∈ rest, chunkName p.1 ≠ chunkName i := by
        intro p hp hc
        have hpi : p.1 = i := chunkName_inj hc
        have hmm : p.1 ∈ rest.map Prod.fst := List.mem_map_of_mem Prod.fst hp
        rw [hpi] at hmm
        exact hnd.1 hmm
      rw [foldl_appendChunk_lookup_ne rest _ (chunkName i) hfresh]
      exact assocWrite_lookup_self _ _ _
    · exact ih _ i c hmem' hnd.2

theorem foldl_appendChunk_keys :
    ∀ (apps : List (Nat × Bytes)) (d : Dir),
    (apps.map Prod.fst).Nodup →
    (∀ p ∈ apps, chunkName p.1 ∉ d.map Prod.fst) →
    (apps.foldl (fun d p => appendChunk d p.1 p.2) d).map Prod.fst
      = d.map Prod.fst ++ apps.map (fun p => chunkName p.1) := by
  intro apps
  induction apps with
  | nil => intro d _ _; simp
  | cons q rest ih =>
    intro d hnd hfresh
    simp only [List.map_cons, List.nodup_cons] at hnd
    simp only [List.foldl_cons, List.map_cons]
    have hkeys : (appendChunk d q.1 q.2).map Prod.fst
        = d.map Prod.fst ++ [chunkName q.1] :=
      assocWrite_keys_fresh d _ _ (hfresh q (List.mem_cons_self q rest))
    have hfresh2 : ∀ p ∈ rest, chunkName p.1 ∉ (appendChunk d q.1 q.2).map Prod.fst := by
      intro p hp
      rw [hkeys]
      simp only [List.mem_append, List.mem_singleton]
      push_neg
      refine ⟨hfresh p (List.mem_cons_of_mem q hp), fun hc => ?_⟩
      have hpq : p.1 = q.1 := chunkName_inj hc
      have hmm : p.1 ∈ rest.map Prod.fst := List.mem_map_of_mem Prod.fst hp
      rw [hpq] at hmm
      exact hnd.1 hmm
    rw [ih (appendChunk d q.1 q.2) hnd.2 hfresh2, hkeys]
    simp

/-! ### Lemmas: `mergeSort` with the lexicographic order -/

/-- A sorted list over the reflexive lexicographic order. -/
theorem mergeSort_lexLe_sorted (l : List Bytes) :
    List.Pairwise (fun a b => lexLe a b = true) (l.mergeSort lexLe) :=
  @List.sorted_mergeSort _ lexLe (fun _ _ _ hab hbc => lexLe_trans hab hbc)
    (fun a b => lexLe_total a b) l

/-- Sorting is canonical: any permutation of a sorted target sorts to
exactly that target (lexicographic order is antisymmetric). -/
theorem mergeSort_lexLe_canonical {l target : List Bytes}
    (hperm : l.Perm target)
    (hsorted : List.Pairwise (fun a b => lexLe a b = true) target) :
    l.mergeSort lexLe = target :=
  @List.eq_of_perm_of_sorted _ (fun a b => lexLe a b = true)
    ⟨fun _ _ hab hba => lexLe_antisymm hab hba⟩ _ _
    ((List.mergeSort_perm l lexLe).trans hperm)
    (mergeSort_lexLe_sorted l) hsorted

/-- The chunk names of indices `0, …, n-1` in index order are sorted,
as long as every index fits in the six-digit padding. -/
theorem sorted_chunkRange : ∀ n : Nat, n ≤ 10 ^ 6 →
    List.Pairwise (fun a b => lexLe a b = true)
      ((List.range n).map chunkName) := by
  intro n
  induction n with
  | zero => intro _; simp
  | succ n ih =>
    intro hn
    rw [List.range_succ, List.map_append, List.pairwise_append]
    refine ⟨ih (by omega), by simp, ?_⟩
    intro a ha b hb
    simp only [List.map_map, List.mem_map, List.mem_range] at ha
    simp only [List.map_cons, List.map_nil, List.mem_singleton] at hb
    obtain ⟨i, hi, rfl⟩ := ha
    subst hb
    exact lexLe_of_lexLt (chunkName_lt hi (by omega))

/-! ### Lemmas: the assembled file -/

theorem chunkFiles_runAppends (meta : Bytes) (apps : List (Nat × Bytes))
    (hnd : (apps.map Prod.fst).Nodup) :
    chunkFiles (runAppends meta apps) = apps.map (fun p => chunkName p.1) := by
  unfold chunkFiles runAppends
  rw [foldl_appendChunk_keys apps (newSessionDir meta) hnd
      (by intro p _; simp [newSessionDir, chunkName_ne_meta])]
  simp only [newSessionDir, List.map_cons, List.map_nil, List.cons_append,
    List.nil_append, List.filter_cons, metaName_not_chunk]
  rw [if_neg (by simp)]
  exact List.filter_eq_self.mpr (by
    intro a ha
    obtain ⟨p, _, rfl⟩ := List.mem_map.mp ha
    exact chunkName_isChunk p.1)

theorem map_fst_canonApps (n : Nat) (content : Nat → Bytes) :
    (canonApps n content).map Prod.fst = List.range n := by
  simp [canonApps, List.map_map]
  exact List.map_id _

theorem canonApps_nodup_fst (n : Nat) (content : Nat → Bytes) :
    ((canonApps n content).map Prod.fst).Nodup := by
  rw [map_fst_canonApps]
  exact List.nodup_range n

theorem assemble_runAppends (meta : Bytes) (n : Nat) (content : Nat → Bytes)
    (apps : List (Nat × Bytes)) (hn6 : n ≤ 10 ^ 6)
    (hperm : apps.Perm (canonApps n content)) :
    assemble (runAppends meta apps) = ((List.range n).map content).flatten := by
  have hfst : (apps.map Prod.fst).Perm (List.range n) := by
    have h := hperm.map Prod.fst
    rwa [map_fst_canonApps] at h
  have hnd : (apps.map Prod.fst).Nodup := hfst.symm.nodup (List.nodup_range n)
  unfold assemble
  rw [chunkFiles_runAppends meta apps hnd]
  have hnamesperm : (apps.map (fun p => chunkName p.1)).Perm
      ((List.range n).map chunkName) := by
    have h1 : apps.map (fun p => chunkName p.1)
        = (apps.map Prod.fst).map chunkName := by
      simp [List.map_map]
    rw [h1]
    exact hfst.map chunkName
  rw [mergeSort_lexLe_canonical hnamesperm (sorted_chunkRange n hn6)]
  rw [List.map_map]
  congr 1
  apply List.map_congr_left
  intro i hi
  have hmem : (i, content i) ∈ apps := by
    rw [hperm.mem_iff]
    exact List.mem_map_of_mem _ (by simpa using hi)
  simp only [Function.comp_apply]
  unfold runAppends
  rw [foldl_appendChunk_lookup apps (newSessionDir meta) i (content i) hmem hnd]
  rfl

/-- Dropping empty contributions does not change a concatenation. -/
theorem flatten_map_filter {α : Type} (g : α → Bytes) :
    ∀ l : List α, (l.map g).flatten
      = ((l.filter (fun x => !(g x).isEmpty)).map g).flatten := by
  intro l
  induction l with
  | nil => rfl
  | cons x xs ih =>
    simp only [List.map_cons, List.flatten_cons, List.filter_cons]
    cases hx : (g x).isEmpty with
    | true =>
      rw [List.isEmpty_iff.mp hx]
      simpa using ih
    | false =>
      simp [hx, ih]

/-- Filtering `range n` by a predicate that holds exactly at `a < b`. -/
theorem filter_range_two (p : Nat → Bool) (a b : Nat) (hab : a < b)
    (hpa : p a = true) (hpb : p b = true)
    (hother : ∀ i, i ≠ a → i ≠ b → p i = false) :
    ∀ n, (List.range n).filter p
      = (if a < n then [a] else []) ++ (if b < n then [b] else []) := by
  intro n
  induction n with
  | zero => simp
  | succ n ih =>
    rw [List.range_succ, List.filter_append, ih]
    by_cases hna : n = a
    · subst hna
      rw [if_neg (by omega), if_neg (by omega), if_pos (by omega),
        if_neg (by omega)]
      simp [hpa]
    · by_cases hnb : n = b
      · subst hnb
        rw [if_pos (by omega), if_neg (by omega), if_pos (by omega),
          if_pos (by omega)]
        simp [hpb]
      · have hfn : List.filter p [n] = [] := by simp [hother n hna hnb]
        rw [hfn, List.append_nil]
        have ha' : (a < n + 1) = (a < n) := by
          apply propext
          omega
        have hb' : (b < n + 1) = (b < n) := by
          apply propext
          omega
        simp only [ha', hb']

/-- A permutation of a two-element list is one of its two arrangements. -/
theorem perm_pair_cases {α : Type} {l : List α} {x y : α}
    (h : l.Perm [x, y]) : l = [x, y] ∨ l = [y, x] := by
  have hlen : l.length = 2 := by simpa using h.length_eq
  match l, hlen, h with
  | [a, b], _, h =>
    have ha : a = x ∨ a = y := List.mem_pair.mp (h.mem_iff.mp (by simp))
    rcases ha with ha | ha
    · subst ha
      have hb : b = y := by simpa [List.perm_singleton] using h.cons_inv
      subst hb
      exact Or.inl rfl
    · subst ha
      have hswap : ([a, b] : List α).Perm [a, x] :=
        h.trans (List.Perm.swap a x [])
      have hb : b = x := by simpa [List.perm_singleton] using hswap.cons_inv
      subst hb
      exact Or.inr rfl

/-- Among the `bigN` chunk names, exactly those of chunks `999999` and
`1000000` have non-empty contents under any lookup that agrees with
`bigContent`. -/
theorem filter_names_big (g : Bytes → Bytes)
    (hg : ∀ i, i < bigN → g (chunkName i) = bigContent i) :
    ((List.range bigN).map chunkName).filter (fun x => !(g x).isEmpty)
      = [chunkName 999999, chunkName 1000000] := by
  rw [List.filter_map]
  have hcong : (List.range bigN).filter ((fun x => !(g x).isEmpty) ∘ chunkName)
      = (List.range bigN).filter (fun i => !(bigContent i).isEmpty) :=
    List.filter_congr (fun i hi => by
      show (!(g (chunkName i)).isEmpty) = (!(bigContent i).isEmpty)
      rw [hg i (List.mem_range.mp hi)])
  rw [hcong, filter_range_two (fun i => !(bigContent i).isEmpty) 999999 1000000
    (by norm_num) (by simp [bigContent]) (by simp [bigContent])
    (fun i hia hib => by simp [bigContent, hia, hib]) bigN]
  rw [if_pos (by norm_num [bigN]), if_pos (by norm_num [bigN])]
  rfl

/-- With `10 ^ 6 + 1` chunks, the zero-padded name of chunk `1000000`
(seven digits) sorts lexicographically before the name of chunk
`999999`, so assembly concatenates chunk `1000000` first. -/
theorem assemble_big :
    assemble (runAppends [] (canonApps bigN bigContent)) = [2, 1] := by
  have hnd := canonApps_nodup_fst bigN bigContent
  unfold assemble
  rw [chunkFiles_runAppends _ _ hnd]
  have hcanon : (canonApps bigN bigContent).map (fun p => chunkName p.1)
      = (List.range bigN).map chunkName := by
    simp [canonApps, List.map_map]
  rw [hcanon]
  set g : Bytes → Bytes := fun nm =>
    ((runAppends [] (canonApps bigN bigContent)).lookup nm).getD [] with hgdef
  have hg : ∀ i, i < bigN → g (chunkName i) = bigContent i := by
    intro i hi
    have hmem : (i, bigContent i) ∈ canonApps bigN bigContent := by
      unfold canonApps
      exact List.mem_map_of_mem _ (List.mem_range.mpr hi)
    simp only [hgdef]
    unfold runAppends
    rw [foldl_appendChunk_lookup _ _ i (bigContent i) hmem hnd]
    rfl
  rw [flatten_map_filter g]
  have hfperm := List.Perm.filter (fun x => !(g x).isEmpty)
    (List.mergeSort_perm ((List.range bigN).map chunkName) lexLe)
  have hcf := filter_names_big g hg
  rw [hcf] at hfperm
  have hpairwise := List.Pairwise.filter (fun x => !(g x).isEmpty)
    (mergeSort_lexLe_sorted ((List.range bigN).map chunkName))
  rcases perm_pair_cases hfperm with hcase | hcase
  · exfalso
    rw [hcase] at hpairwise
    have hle : lexLe (chunkName 999999) (chunkName 1000000) = true :=
      (List.pairwise_cons.mp hpairwise).1 _ (by simp)
    have hfalse : lexLe (chunkName 999999) (chunkName 1000000) = false := by decide
    rw [hfalse] at hle
    simp at hle
  · rw [hcase]
    simp only [List.map_cons, List.map_nil, List.flatten_cons, List.flatten_nil]
    rw [hg 1000000 (by norm_num [bigN]), hg 999999 (by norm_num [bigN])]
    simp [bigContent]

/-- The index-order concatenation of the counterexample contents. -/
theorem flatten_big : ((List.range bigN).map bigContent).flatten = [1, 2] := by
  rw [flatten_map_filter bigContent]
  rw [filter_range_two (fun i => !(bigContent i).isEmpty) 999999 1000000
    (by norm_num) (by simp [bigContent]) (by simp [bigContent])
    (fun i hia hib => by simp [bigContent, hia, hib]) bigN]
  rw [if_pos (by norm_num [bigN]), if_pos (by norm_num [bigN])]
  simp [bigContent]

/-- `complete_upload` on a live single-session store with at least one
staged chunk: assemble, register, delete the scratch directory, answer
`201`. -/
theorem completeUpload_single (uid fileId fname : String) (now : Nat)
    (d : Dir) (songs : List Song) (files : List String)
    (hne : (chunkFiles d).isEmpty = false) :
    completeUpload ⟨[(uid, d)], songs, files⟩ uid fileId fname now
      = ({ sessions := [], songs := registerAssembled songs fileId fname now,
           files := files ++ [fname] }, 201, some (assemble d)) := by
  unfold completeUpload
  have hlk : ([(uid, d)] : List (String × Dir)).lookup uid = some d := by
    simp [List.lookup]
  simp only [hlk, hne, Bool.false_eq_true, if_false, List.eraseP]
  simp

theorem chunkFiles_nonempty (meta : Bytes) (apps : List (Nat × Bytes))
    (hnd : (apps.map Prod.fst).Nodup) (happs : apps ≠ []) :
    (chunkFiles (runAppends meta apps)).isEmpty = false := by
  rw [chunkFiles_runAppends meta apps hnd]
  cases apps with
  | nil => exact absurd rfl happs
  | cons a l => rfl

/-! ### Claim C1 -/

/-- C1, amended: for every `n` with `1 ≤ n ≤ 10 ^ 6` and every
permutation of chunk-append calls supplying each index in `[0, n)`
exactly once, completing the upload session returns the concatenation of
the chunks in numeric index order, independent of append order.  (The
claim's unbounded "for every n ≥ 1" fails at `n = 10 ^ 6 + 1`, see the
counterexample.) -/
theorem C1_chunk_order_amended (n : Nat) (content : Nat → Bytes)
    (apps : List (Nat × Bytes)) (meta : Bytes) (uid fileId fname : String)
    (now : Nat) (songs : List Song) (files : List String)
    (h1 : 1 ≤ n) (h6 : n ≤ 10 ^ 6)
    (hperm : apps.Perm (canonApps n content)) :
    (completeUpload ⟨[(uid, runAppends meta apps)], songs, files⟩
        uid fileId fname now).2.2
      = some (((List.range n).map content).flatten) := by
  have hfst : (apps.map Prod.fst).Perm (List.range n) := by
    have h := hperm.map Prod.fst
    rwa [map_fst_canonApps] at h
  have hnd : (apps.map Prod.fst).Nodup := hfst.symm.nodup (List.nodup_range n)
  have hlen : apps ≠ [] := by
    intro hc
    have hl := hperm.length_eq
    rw [hc] at hl
    simp [canonApps] at hl
    omega
  rw [completeUpload_single uid fileId fname now _ songs files
    (chunkFiles_nonempty meta apps hnd hlen)]
  show some (assemble (runAppends meta apps)) = _
  rw [assemble_runAppends meta n content apps h6 hperm]

/-- C1, witness: spec scenario 1 — three chunks of sizes 4, 4, 8
appended in order `[1, 0, 2]` assemble in index order `0 ++ 1 ++ 2`. -/
theorem C1_witness :
    (completeUpload ⟨[("u1", runAppends [] demoApps)], [], []⟩
        "u1" "f1" "f1.mp3" 0).2.2
      = some (((List.range 3).map demoContent).flatten) :=
  C1_chunk_order_amended 3 demoContent demoApps [] "u1" "f1" "f1.mp3" 0 [] []
    (by decide) (by decide) (by decide)

/-- C1, counterexample: with `n = 10 ^ 6 + 1` chunks supplied in index
order (a permutation supplying each index in `[0, n)` exactly once),
`complete_upload` does not return the concatenation of the chunks in
numeric index order: the name `chunk-1000000.part` sorts before
`chunk-999999.part`, so the assembled file is `[2, 1]` while index order
gives `[1, 2]`.  The claim as stated (for every `n ≥ 1`) is false. -/
theorem C1_counterexample :
    (completeUpload ⟨[("u1", runAppends [] (canonApps bigN bigContent))], [], []⟩
        "u1" "f1" "f1.bin" 0).2.2
      ≠ some (((List.range bigN).map bigContent).flatten) := by
  rw [completeUpload_single "u1" "f1" "f1.bin" 0 _ [] []
    (chunkFiles_nonempty [] (canonApps bigN bigContent)
      (canonApps_nodup_fst bigN bigContent)
      (by
        intro hc
        have hl := congrArg List.length hc
        simp [canonApps, bigN] at hl))]
  show some (assemble (runAppends [] (canonApps bigN bigContent))) ≠ _
  rw [assemble_big, flatten_big]
  simp

/-! ### Claim C7 -/

theorem lookup_eq_none_of_not_mem {α β : Type} [BEq α] [LawfulBEq α] :
    ∀ (l : List (α × β)) (k : α), k ∉ l.map Prod.fst → l.lookup k = none := by
  intro l
  induction l with
  | nil => intro k _; rfl
  | cons p rest ih =>
    intro k hk
    obtain ⟨a, b⟩ := p
    simp only [List.map_cons, List.mem_cons] at hk
    push_neg at hk
    simp only [List.lookup]
    rw [beq_eq_false_iff_ne.mpr hk.1]
    exact ih k hk.2

theorem lookup_eraseP_self {β : Type} :
    ∀ (l : List (String × β)) (uid : String), (l.map Prod.fst).Nodup →
    (l.eraseP (fun kv => kv.1 == uid)).lookup uid = none := by
  intro l
  induction l with
  | nil => intro uid _; rfl
  | cons p rest ih =>
    intro uid hnd
    obtain ⟨a, b⟩ := p
    simp only [List.map_cons, List.nodup_cons] at hnd
    by_cases ha : a = uid
    · subst ha
      rw [List.eraseP_cons]
      simp only [beq_self_eq_true, cond_true]
      exact lookup_eq_none_of_not_mem rest a hnd.1
    · have hba : ((a, b).1 == uid) = false := beq_eq_false_iff_ne.mpr ha
      rw [List.eraseP_cons]
      simp only [hba, cond_false, List.lookup]
      rw [beq_eq_false_iff_ne.mpr (Ne.symm ha)]
      exact ih uid hnd.2

/-- C7: `completeSession` fails with `SessionNotFound` (404) whenever
the session directory does not exist — in particular on every second
completion of a session whose first completion succeeded and deleted the
scratch directory — and fails with `NoChunksError` (400) when the
session exists but holds zero chunk files; in both error cases the
state (and so the `songs` table and the upload root) is unchanged and no
final file is produced. -/
theorem C7_complete_errors (st : ServerState) (uid fileId fname : String)
    (now : Nat) (fileId2 fname2 : String) (now2 : Nat) :
    (st.sessions.lookup uid = none →
      completeUpload st uid fileId fname now = (st, 404, none)) ∧
    (∀ d, st.sessions.lookup uid = some d → (chunkFiles d).isEmpty = true →
      completeUpload st uid fileId fname now = (st, 400, none)) ∧
    (∀ d, st.sessions.lookup uid = some d → (chunkFiles d).isEmpty = false →
      (st.sessions.map Prod.fst).Nodup →
      (completeUpload st uid fileId fname now).2.1 = 201 ∧
      completeUpload (completeUpload st uid fileId fname now).1 uid
          fileId2 fname2 now2
        = ((completeUpload st uid fileId fname now).1, 404, none)) := by
  refine ⟨?_, ?_, ?_⟩
  · intro h
    unfold completeUpload
    simp only [h]
  · intro d hd hempty
    unfold completeUpload
    simp only [hd, hempty, if_true]
  · intro d hd hne hnd
    have h1 : completeUpload st uid fileId fname now
        = ({ sessions := st.sessions.eraseP (fun kv => kv.1 == uid),
             songs := registerAssembled st.songs fileId fname now,
             files := st.files ++ [fname] },
           201, some (assemble d)) := by
      unfold completeUpload
      simp only [hd, hne, Bool.false_eq_true, if_false]
    rw [h1]
    refine ⟨rfl, ?_⟩
    unfold completeUpload
    simp only [lookup_eraseP_self st.sessions uid hnd]

/-- C7, witness: on a store holding one session with one staged chunk,
the first completion answers 201 and the immediate retry answers 404
with the state unchanged. -/
theorem C7_witness :
    (completeUpload ⟨[("u1", appendChunk (newSessionDir []) 0 [7])], [], []⟩
        "u1" "f1" "f1.bin" 0).2.1 = 201 ∧
    completeUpload
        (completeUpload ⟨[("u1", appendChunk (newSessionDir []) 0 [7])], [], []⟩
          "u1" "f1" "f1.bin" 0).1 "u1" "f2" "f2.bin" 1
      = ((completeUpload ⟨[("u1", appendChunk (newSessionDir []) 0 [7])], [], []⟩
          "u1" "f1" "f1.bin" 0).1, 404, none) :=
  (C7_complete_errors ⟨[("u1", appendChunk (newSessionDir []) 0 [7])], [], []⟩
      "u1" "f1" "f1.bin" 0 "f2" "f2.bin" 1).2.2
    (appendChunk (newSessionDir []) 0 [7]) (by decide) (by decide) (by decide)

/-! ### Lemmas: dict merge (`existing.update(body)`) -/

theorem jUpdate_lookup_none : ∀ (b : JObj) (e : JObj) (k : String),
    b.lookup k = none → (jUpdate e b).lookup k = e.lookup k := by
  intro b
  induction b with
  | nil => intro e k _; rfl
  | cons p rest ih =>
    intro e k hk
    obtain ⟨k', v'⟩ := p
    simp only [List.lookup] at hk
    cases hkk : (k == k') with
    | true => rw [hkk] at hk; simp at hk
    | false =>
      rw [hkk] at hk
      have hk' : rest.lookup k = none := hk
      show (jUpdate (assocWrite e k' v') rest).lookup k = _
      rw [ih (assocWrite e k' v') k hk']
      exact assocWrite_lookup_ne e k' k v' (by simpa using hkk)

theorem jUpdate_lookup_mem : ∀ (b : JObj) (e : JObj) (k : String) (v : JVal),
    b.lookup k = some v → (b.map Prod.fst).Nodup →
    (jUpdate e b).lookup k = some v := by
  intro b
  induction b with
  | nil => intro e k v hk _; simp [List.lookup] at hk
  | cons p rest ih =>
    intro e k v hk hnd
    obtain ⟨k', v'⟩ := p
    simp only [List.map_cons, List.nodup_cons] at hnd
    simp only [List.lookup] at hk
    cases hkk : (k == k') with
    | true =>
      rw [hkk] at hk
      have hkeq : k = k' := by simpa using hkk
      subst hkeq
      have hv : v' = v := by simpa using hk
      subst hv
      show (jUpdate (assocWrite e k v') rest).lookup k = some v'
      rw [jUpdate_lookup_none rest _ k (lookup_eq_none_of_not_mem rest k hnd.1)]
      exact assocWrite_lookup_self e k v'
    | false =>
      rw [hkk] at hk
      have hk' : rest.lookup k = some v := hk
      show (jUpdate (assocWrite e k' v') rest).lookup k = some v
      exact ih _ k v hk' hnd.2

theorem jGet_jUpdate (e b : JObj) (k : String)
    (hnd : (b.map Prod.fst).Nodup) :
    jGet (jUpdate e b) k
      = match b.lookup k with
        | some v => v
        | none => jGet e k := by
  cases hb : b.lookup k with
  | none =>
    unfold jGet
    rw [jUpdate_lookup_none b e k hb]
  | some v =>
    unfold jGet
    rw [jUpdate_lookup_mem b e k v hb hnd]

/-! ### Lemmas: row updates keyed by id -/

theorem find?_songs_update (songs : List Song) (id : String) (g : Song → Song)
    (hg : ∀ r, (g r).id = r.id) :
    (songs.map (fun r => if r.id == id then g r else r)).find?
        (fun r => r.id == id)
      = (songs.find? (fun r => r.id == id)).map g := by
  induction songs with
  | nil => rfl
  | cons s rest ih =>
    by_cases h : s.id = id
    · have hsid : (s.id == id) = true := beq_iff_eq.mpr h
      have hgid : ((g s).id == id) = true := by rw [hg s]; exact hsid
      simp only [List.map_cons, hsid, if_true, List.find?_cons, hgid]
      rfl
    · have hsid : (s.id == id) = false := beq_eq_false_iff_ne.mpr h
      simp only [List.map_cons, hsid, Bool.false_eq_true, if_false,
        List.find?_cons]
      exact ih

/-- The first row matching an id is the only one, when ids are distinct. -/
theorem find?_eq_of_mem_nodup :
    ∀ (songs : List Song) (s : Song) (id : String), s ∈ songs → s.id = id →
    (songs.map Song.id).Nodup → songs.find? (fun r => r.id == id) = some s := by
  intro songs
  induction songs with
  | nil => intro s id hs _ _; simp at hs
  | cons t rest ih =>
    intro s id hs hsid hnd
    simp only [List.map_cons, List.nodup_cons] at hnd
    by_cases ht : t.id = id
    · have : s = t := by
        rcases List.mem_cons.mp hs with h1 | h1
        · exact h1
        · exfalso
          have : s.id ∈ rest.map Song.id := List.mem_map_of_mem Song.id h1
          rw [hsid, ← ht] at this
          exact hnd.1 this
      subst this
      simp [List.find?_cons, beq_iff_eq.mpr ht]
    · have hsne : s ≠ t := fun hc => ht (by rw [← hc, hsid])
      have hmem : s ∈ rest := by
        rcases List.mem_cons.mp hs with h1 | h1
        · exact absurd h1 hsne
        · exact h1
      simp only [List.find?_cons, beq_eq_false_iff_ne.mpr ht]
      exact ih s id hmem hsid hnd.2

/-! ### The title/artist sync invariant of all reachable song tables -/

theorem reachable_titleSync {songs : List Song} (h : SongsReachable songs) :
    ∀ s ∈ songs, TitleSync s := by
  induction h with
  | nil => simp
  | upload fileId fname meta now _ ih =>
    intro s hs
    unfold uploadSong at hs
    rcases List.mem_append.mp hs with h1 | h1
    · exact ih s h1
    · simp only [List.mem_singleton] at h1
      subst h1
      exact ⟨rfl, rfl⟩
  | assembled fileId fname now _ ih =>
    intro s hs
    unfold registerAssembled at hs
    rcases List.mem_append.mp hs with h1 | h1
    · exact ih s h1
    · simp only [List.mem_singleton] at h1
      subst h1
      exact ⟨rfl, rfl⟩
  | patched id body hbnd _ ih =>
    intro s hs
    unfold patchSong at hs
    cases hf : findSong _ id with
    | none => rw [hf] at hs; exact ih s hs
    | some s0 =>
      rw [hf] at hs
      simp only [List.mem_map] at hs
      obtain ⟨r, hr, heq⟩ := hs
      by_cases hrid : r.id = id
      · rw [if_pos (beq_iff_eq.mpr hrid)] at heq
        subst heq
        refine ⟨?_, ?_⟩
        · show (match List.lookup "title" body with
            | some v => v
            | none => jGet (jUpdate s0.metadata body) "title")
            = jGet (jUpdate s0.metadata body) "title"
          cases hb : List.lookup "title" body with
          | none => rfl
          | some v =>
            rw [jGet_jUpdate s0.metadata body "title" hbnd, hb]
        · show (match List.lookup "artist" body with
            | some v => v
            | none => jGet (jUpdate s0.metadata body) "artist")
            = jGet (jUpdate s0.metadata body) "artist"
          cases hb : List.lookup "artist" body with
          | none => rfl
          | some v =>
            rw [jGet_jUpdate s0.metadata body "artist" hbnd, hb]
      · rw [if_neg (by simp [hrid])] at heq
        subst heq
        exact ih r hr
  | deleted files id _ ih =>
    intro s hs
    unfold deleteSong at hs
    simp only at hs
    exact ih s (List.mem_of_mem_filter hs)

/-! ### Claim C9 -/

/-- C9: for every Song of this subsystem (i.e. in a song table reachable
through its own write operations) and every patch with distinct keys,
`PATCH /songs/{id}` merges the patch's keys into the metadata blob,
changes the stored `title`/`artist` columns exactly when the
corresponding key is present in the patch (otherwise they keep their
prior values), leaves `id`, `filename`, `duration` and `created_at`
unchanged, and answers 404 when no song has the id. -/
theorem C9_patch_merge (songs : List Song) (id : String) (body : JObj)
    (s : Song) (hreach : SongsReachable songs)
    (hfind : findSong songs id = some s)
    (hnd : (body.map Prod.fst).Nodup) :
    (patchSong songs id body).2 = 200 ∧
    findSong (patchSong songs id body).1 id
      = some { s with
          title := match List.lookup "title" body with
            | some v => v
            | none => s.title,
          artist := match List.lookup "artist" body with
            | some v => v
            | none => s.artist,
          metadata := jUpdate s.metadata body } ∧
    (∀ k, jGet (jUpdate s.metadata body) k
      = match List.lookup k body with
        | some v => v
        | none => jGet s.metadata k) ∧
    (∀ id', findSong songs id' = none →
      patchSong songs id' body = (songs, 404)) := by
  have hsync : TitleSync s :=
    reachable_titleSync hreach s (List.mem_of_find?_eq_some hfind)
  refine ⟨?_, ?_, ?_, ?_⟩
  · unfold patchSong
    rw [hfind]
  · have hpatch : (patchSong songs id body).1
        = songs.map (fun r => if r.id == id then
            { r with
              title := match List.lookup "title" body with
                | some v => v
                | none => jGet (jUpdate s.metadata body) "title",
              artist := match List.lookup "artist" body with
                | some v => v
                | none => jGet (jUpdate s.metadata body) "artist",
              metadata := jUpdate s.metadata body }
          else r) := by
      unfold patchSong
      rw [hfind]
    rw [hpatch]
    unfold findSong
    rw [find?_songs_update songs id (fun r =>
      { r with
        title := match List.lookup "title" body with
          | some v => v
          | none => jGet (jUpdate s.metadata body) "title",
        artist := match List.lookup "artist" body with
          | some v => v
          | none => jGet (jUpdate s.metadata body) "artist",
        metadata := jUpdate s.metadata body }) (fun r => rfl)]
    have hfind' : List.find? (fun r => r.id == id) songs = some s := hfind
    rw [hfind']
    simp only [Option.map_some']
    have hts : (match List.lookup "title" body with
        | some v => v
        | none => jGet (jUpdate s.metadata body) "title")
        = (match List.lookup "title" body with
        | some v => v
        | none => s.title) := by
      cases hb : List.lookup "title" body with
      | some v => rfl
      | none =>
        show jGet (jUpdate s.metadata body) "title" = s.title
        rw [jGet_jUpdate s.metadata body "title" hnd, hb]
        exact hsync.1.symm
    have has : (match List.lookup "artist" body with
        | some v => v
        | none => jGet (jUpdate s.metadata body) "artist")
        = (match List.lookup "artist" body with
        | some v => v
        | none => s.artist) := by
      cases hb : List.lookup "artist" body with
      | some v => rfl
      | none =>
        show jGet (jUpdate s.metadata body) "artist" = s.artist
        rw [jGet_jUpdate s.metadata body "artist" hnd, hb]
        exact hsync.2.symm
    rw [hts, has]
  · intro k
    exact jGet_jUpdate s.metadata body k hnd
  · intro id' h'
    unfold patchSong
    rw [h']

/-- C9, witness: a song uploaded with metadata `title = "A"`, patched
with `artist = "B"` only, keeps its title and gains the artist. -/
theorem C9_witness :
    findSong (patchSong (uploadSong [] "s1" "s1.mp3" [("title", some "A")] 0)
        "s1" [("artist", some "B")]).1 "s1"
      = some { (⟨"s1", some "A", none, "s1.mp3", none,
            [("title", some "A")], 0⟩ : Song) with
          title := match List.lookup "title" [("artist", some "B")] with
            | some v => v
            | none => some "A",
          artist := match List.lookup "artist" [("artist", some "B")] with
            | some v => v
            | none => none,
          metadata := jUpdate [("title", some "A")] [("artist", some "B")] } :=
  (C9_patch_merge (uploadSong [] "s1" "s1.mp3" [("title", some "A")] 0)
      "s1" [("artist", some "B")]
      ⟨"s1", some "A", none, "s1.mp3", none, [("title", some "A")], 0⟩
      (SongsReachable.upload "s1" "s1.mp3" [("title", some "A")] 0
        SongsReachable.nil)
      (by decide) (by decide)).2.1

/-! ### Claim C10 -/

/-- C10: `DELETE /songs/{id}` always answers 204 — also when no song
with that id exists (deletion never reports NotFound) — and when the
song exists its row is removed and its (named) backing file is removed
from the upload root; an already-missing backing file is tolerated the
same way. -/
theorem C10_delete_idempotent (songs : List Song) (files : List String)
    (id : String) (hids : (songs.map Song.id).Nodup)
    (hfiles : files.Nodup) :
    (deleteSong songs files id).2.2 = 204 ∧
    (∀ r ∈ (deleteSong songs files id).1, r.id ≠ id) ∧
    (∀ s ∈ songs, s.id = id → s.filename ≠ "" →
      s.filename ∉ (deleteSong songs files id).2.1) := by
  refine ⟨rfl, ?_, ?_⟩
  · intro r hr
    unfold deleteSong at hr
    simp only at hr
    have hm := List.mem_filter.mp hr
    simpa using hm.2
  · intro s hs hsid hfn
    have hfind : findSong songs id = some s :=
      find?_eq_of_mem_nodup songs s id hs hsid hids
    show s.filename ∉ (match findSong songs id with
      | some s => if s.filename ≠ "" then files.erase s.filename else files
      | none => files)
    rw [hfind]
    simp only [if_pos hfn]
    exact hfiles.not_mem_erase

/-- C10, witness: deleting an existing song removes the row and its
backing file and answers 204; the instance also covers the 204 answer
for any id. -/
theorem C10_witness :
    (deleteSong [⟨"s1", none, none, "s1.mp3", none, [], 0⟩] ["s1.mp3"]
        "s1").2.2 = 204 ∧
    (∀ r ∈ (deleteSong [⟨"s1", none, none, "s1.mp3", none, [], 0⟩]
        ["s1.mp3"] "s1").1, r.id ≠ "s1") ∧
    (∀ s ∈ [(⟨"s1", none, none, "s1.mp3", none, [], 0⟩ : Song)],
      s.id = "s1" → s.filename ≠ "" →
      s.filename ∉ (deleteSong [⟨"s1", none, none, "s1.mp3", none, [], 0⟩]
        ["s1.mp3"] "s1").2.1) :=
  C10_delete_idempotent [⟨"s1", none, none, "s1.mp3", none, [], 0⟩]
    ["s1.mp3"] "s1" (by decide) (by decide)

/-! ### Lemmas: jobs, dispatch, claim, poller -/

theorem mergeSort_singleton {α : Type} (le : α → α → Bool) (a : α) :
    [a].mergeSort le = [a] :=
  List.perm_singleton.mp (List.mergeSort_perm [a] le)

theorem mergeSort_jobs_pair (x y : Job)
    (hyx : ¬ y.created_at ≤ x.created_at) :
    [x, y].mergeSort (fun a b => decide (a.created_at ≤ b.created_at))
      = [x, y] := by
  have hperm := List.mergeSort_perm [x, y]
    (fun a b => decide (a.created_at ≤ b.created_at))
  have hsorted := @List.sorted_mergeSort _
    (fun a b => decide (a.created_at ≤ b.created_at))
    (fun a b c hab hbc => by
      simp only [decide_eq_true_eq] at *
      omega)
    (fun a b => by
      simp only [Bool.or_eq_true, decide_eq_true_eq]
      omega)
    [x, y]
  rcases perm_pair_cases hperm with h | h
  · exact h
  · exfalso
    rw [h] at hsorted
    have := (List.pairwise_cons.mp hsorted).1 x (by simp)
    simp only [decide_eq_true_eq] at this
    exact hyx this

theorem find?_jobs_update (jobs : List Job) (id : String) (g : Job → Job)
    (hg : ∀ r, (g r).id = r.id) :
    (jobs.map (fun r => if r.id == id then g r else r)).find?
        (fun r => r.id == id)
      = (jobs.find? (fun r => r.id == id)).map g := by
  induction jobs with
  | nil => rfl
  | cons s rest ih =>
    by_cases h : s.id = id
    · have hsid : (s.id == id) = true := beq_iff_eq.mpr h
      have hgid : ((g s).id == id) = true := by rw [hg s]; exact hsid
      simp only [List.map_cons, hsid, if_true, List.find?_cons, hgid]
      rfl
    · have hsid : (s.id == id) = false := beq_eq_false_iff_ne.mpr h
      simp only [List.map_cons, hsid, Bool.false_eq_true, if_false,
        List.find?_cons]
      exact ih

theorem stageUpd_id : ∀ (k : Nat) (r : Job), (stageUpd k r).id = r.id := by
  intro k
  induction k with
  | zero => intro r; rfl
  | succ k ih => intro r; exact ih r

theorem findJob_applyStages : ∀ (k : Nat) (jobs : List Job) (id : String),
    findJob (applyStages jobs id k) id = (findJob jobs id).map (stageUpd k) := by
  intro k
  induction k with
  | zero =>
    intro jobs id
    show findJob jobs id = (findJob jobs id).map (stageUpd 0)
    cases findJob jobs id <;> rfl
  | succ k ih =>
    intro jobs id
    have hstep : applyStages jobs id (k + 1)
        = updateProgress (applyStages jobs id k) id ((k + 1 : ℚ) / 5)
            ("stage " ++ toString (k + 1)) := rfl
    rw [hstep]
    unfold updateProgress findJob
    rw [find?_jobs_update (applyStages jobs id k) id
      (fun r => { r with
        progress := (k + 1 : ℚ) / 5,
        message := "stage " ++ toString (k + 1) }) (fun r => rfl)]
    have hih := ih jobs id
    unfold findJob at hih
    rw [hih, Option.map_map]
    rfl

theorem findJob_markProcessing (jobs : List Job) (id : String) :
    findJob (markProcessing jobs id) id
      = (findJob jobs id).map
          (fun r => { r with status := "processing", message := "taken by poller" }) := by
  unfold markProcessing findJob
  exact find?_jobs_update jobs id _ (fun r => rfl)

theorem findJob_markCompleted (jobs : List Job) (id : String) :
    findJob (markCompleted jobs id) id
      = (findJob jobs id).map
          (fun r => { r with status := "completed", progress := 1, message := "done" }) := by
  unfold markCompleted findJob
  exact find?_jobs_update jobs id _ (fun r => rfl)

theorem findJob_markFailed (jobs : List Job) (id : String) (e : String) :
    findJob (markFailed jobs id e) id
      = (findJob jobs id).map
          (fun r => { r with status := "failed", message := e }) := by
  unfold markFailed findJob
  exact find?_jobs_update jobs id _ (fun r => rfl)

/-- Whatever the claim read returns was a queued row of the store. -/
theorem select_mem {jobs : List Job} {j : Job}
    (h : selectOldestQueued jobs = some j) :
    j ∈ jobs ∧ j.status = "queued" := by
  unfold selectOldestQueued at h
  have hmem := List.mem_of_mem_head? (Option.mem_def.mpr h)
  rw [List.mem_mergeSort] at hmem
  have h1 := List.mem_filter.mp hmem
  exact ⟨h1.1, by simpa using h1.2⟩

/-- A job freshly marked `processing` is never returned by the next
(claim) read: the select only sees `queued` rows and every row with the
marked id now carries status `processing`. -/
theorem select_marked_ne (jobs : List Job) (id : String) (j' : Job)
    (h : selectOldestQueued (markProcessing jobs id) = some j') :
    j'.id ≠ id := by
  have hm := select_mem h
  intro hc
  unfold markProcessing at hm
  obtain ⟨r, _, heq⟩ := List.mem_map.mp hm.1
  by_cases hrid : r.id = id
  · rw [if_pos (beq_iff_eq.mpr hrid)] at heq
    have : j'.status = "processing" := by rw [← heq]
    rw [hm.2] at this
    exact absurd this (by decide)
  · rw [if_neg (by simp [hrid])] at heq
    rw [← heq] at hc
    exact hrid hc

/-! ### Claim C2 -/

/-- C2 (code bug): `start_process` creates the job row, but only the
`else` (no distributed queue) branch returns a response.  When
`REDIS_URL` is configured and `rq`/`redis` import, the view — whether
the enqueue succeeds or raises into the fallback-thread path — falls off
the end of the function and returns `None` (Flask then answers 500), so
the claimed "202 in all cases" fails exactly on the queue-configured
branch. -/
theorem C2_dispatch_no_response :
    ((startProcess [] "demucs" "f1" "j1" 0 true true).2.1 = none) ∧
    ((startProcess [] "demucs" "f1" "j1" 0 true false).2.1 = none) ∧
    ((startProcess [] "demucs" "f1" "j1" 0 false true).2.1
      = some (202, "j1", "f1")) :=
  ⟨rfl, rfl, rfl⟩

/-! ### Claim C3 -/

theorem find?_append_fresh (jobs : List Job) (row : Job)
    (hfresh : ∀ j ∈ jobs, j.id ≠ row.id) :
    (jobs ++ [row]).find? (fun j => j.id == row.id) = some row := by
  induction jobs with
  | nil => simp [List.find?_cons]
  | cons t rest ih =>
    have ht : (t.id == row.id) = false :=
      beq_eq_false_iff_ne.mpr (hfresh t (List.mem_cons_self t rest))
    simp only [List.cons_append, List.find?_cons, ht]
    exact ih (fun j hj => hfresh j (List.mem_cons_of_mem t hj))

/-- C3 (counterexample): a job created by dispatch, read back
immediately, reports status `"processing"` — not the claimed
`"queued"`. -/
theorem C3_counterexample :
    Option.map Job.status
        ((startProcess [] "demucs" "f1" "j1" 0 false true).1.find?
          (fun j => j.id == "j1"))
      = some "processing" ∧ "processing" ≠ "queued" := by
  constructor
  · decide
  · decide

/-- C3 (amended): every Job created by dispatch is inserted with status
`"processing"`, progress `0` and message `"queued"`; reading the job
right after dispatch therefore returns status `"processing"` (the
status string `"queued"` only ever appears in the message column). -/
theorem C3_initial_status (jobs : List Job) (model fileId jobId : String)
    (now : Nat) (cfg ok : Bool)
    (hfresh : ∀ j ∈ jobs, j.id ≠ jobId) :
    findJob (startProcess jobs model fileId jobId now cfg ok).1 jobId
      = some ⟨jobId, fileId, model, "processing", 0, "queued", now⟩ := by
  have hfst : (startProcess jobs model fileId jobId now cfg ok).1
      = jobs ++ [⟨jobId, fileId, model, "processing", 0, "queued", now⟩] := by
    unfold startProcess
    cases cfg <;> rfl
  rw [hfst]
  unfold findJob
  exact find?_append_fresh jobs
    ⟨jobId, fileId, model, "processing", 0, "queued", now⟩ hfresh

/-- C3, witness: dispatch into an empty store. -/
theorem C3_witness :
    findJob (startProcess [] "demucs" "f1" "j1" 5 false true).1 "j1"
      = some ⟨"j1", "f1", "demucs", "processing", 0, "queued", 5⟩ :=
  C3_initial_status [] "demucs" "f1" "j1" 5 false true (by simp)

/-! ### Claim C4 -/

/-- C4 (counterexample): the poller's claim step is a separate
`SELECT` followed by an unconditional `UPDATE`.  Under the interleaving
`A`-select, `B`-select, `A`-update, `B`-update on a store holding one
queued job, both pollers receive the same job id — the claimed
single-atomic-operation behaviour (no two callers ever receive the same
Job id) is false for this code. -/
theorem C4_counterexample :
    (runSched ⟨[qJob "job-1" 0], .toSelect, .toSelect⟩
        [false, true, false, true]).pa
      = ClaimPhase.finished (some (qJob "job-1" 0)) ∧
    (runSched ⟨[qJob "job-1" 0], .toSelect, .toSelect⟩
        [false, true, false, true]).pb
      = ClaimPhase.finished (some (qJob "job-1" 0)) := by
  have hsel : selectOldestQueued [qJob "job-1" 0] = some (qJob "job-1" 0) := by
    have hfil : [qJob "job-1" 0].filter (fun j => j.status == "queued")
        = [qJob "job-1" 0] := by decide
    unfold selectOldestQueued
    rw [hfil, mergeSort_singleton]
    rfl
  constructor <;>
    simp [runSched, stepSched, claimStepOnce, hsel]

/-- C4 (amended): the claim step is a read-then-write pair, not one
atomic conditional update, and interleaved pollers can double-claim (see
the counterexample); but when the two claim steps run without
interleaving — each select+update completing before the next select —
no two callers receive the same Job id, because the second select only
sees `queued` rows and the claimed row was just set to `processing`. -/
theorem C4_sequential_claims (jobs : List Job) (a b : Job)
    (h1 : (runSched ⟨jobs, .toSelect, .toSelect⟩
        [false, false, true, true]).pa = ClaimPhase.finished (some a))
    (h2 : (runSched ⟨jobs, .toSelect, .toSelect⟩
        [false, false, true, true]).pb = ClaimPhase.finished (some b)) :
    a.id ≠ b.id := by
  cases hra : selectOldestQueued jobs with
  | none =>
    simp [runSched, stepSched, claimStepOnce, hra] at h1
  | some j =>
    cases hrb : selectOldestQueued (markProcessing jobs j.id) with
    | none =>
      simp [runSched, stepSched, claimStepOnce, hra, hrb] at h2
    | some j' =>
      have hpa : (runSched ⟨jobs, .toSelect, .toSelect⟩
          [false, false, true, true]).pa = ClaimPhase.finished (some j) := by
        simp [runSched, stepSched, claimStepOnce, hra, hrb]
      have hpb : (runSched ⟨jobs, .toSelect, .toSelect⟩
          [false, false, true, true]).pb = ClaimPhase.finished (some j') := by
        simp [runSched, stepSched, claimStepOnce, hra, hrb]
      rw [hpa] at h1
      rw [hpb] at h2
      have hja : j = a := by simpa using h1
      have hjb : j' = b := by simpa using h2
      rw [← hja, ← hjb]
      exact Ne.symm (select_marked_ne jobs j.id j' hrb)

/-- The claim read on the two-job demo store returns the older queued
job. -/
theorem sel_two_jobs :
    selectOldestQueued [qJob "job-1" 0, qJob "job-2" 1]
      = some (qJob "job-1" 0) := by
  have hfil : [qJob "job-1" 0, qJob "job-2" 1].filter
      (fun j => j.status == "queued") = [qJob "job-1" 0, qJob "job-2" 1] := by
    decide
  unfold selectOldestQueued
  rw [hfil, mergeSort_jobs_pair _ _ (by decide)]
  rfl

/-- After the first job is marked `processing`, the claim read returns
the second. -/
theorem sel_two_jobs_marked :
    selectOldestQueued
        (markProcessing [qJob "job-1" 0, qJob "job-2" 1] (qJob "job-1" 0).id)
      = some (qJob "job-2" 1) := by
  have hmark : markProcessing [qJob "job-1" 0, qJob "job-2" 1]
      (qJob "job-1" 0).id
      = [⟨"job-1", "f1", "demucs", "processing", 0, "taken by poller", 0⟩,
         qJob "job-2" 1] := by decide
  rw [hmark]
  have hfil : [(⟨"job-1", "f1", "demucs", "processing", 0, "taken by poller", 0⟩ : Job),
      qJob "job-2" 1].filter (fun j => j.status == "queued")
      = [qJob "job-2" 1] := by decide
  unfold selectOldestQueued
  rw [hfil, mergeSort_singleton]
  rfl

/-- C4, witness: two non-interleaved claim steps on a store with two
queued jobs hand out the two distinct job ids. -/
theorem C4_witness : (qJob "job-1" 0).id ≠ (qJob "job-2" 1).id :=
  C4_sequential_claims [qJob "job-1" 0, qJob "job-2" 1]
    (qJob "job-1" 0) (qJob "job-2" 1)
    (by simp [runSched, stepSched, claimStepOnce, sel_two_jobs,
      sel_two_jobs_marked])
    (by simp [runSched, stepSched, claimStepOnce, sel_two_jobs,
      sel_two_jobs_marked])

/-! ### Claim C8 -/

theorem pollerIteration_eq (jobs : List Job) (work : String → BgWork)
    (j : Job) (hsel : selectOldestQueued jobs = some j) :
    pollerIteration jobs work
      = backgroundRun (markProcessing jobs j.id) j.id (work j.id) := by
  unfold pollerIteration
  rw [hsel]

theorem findJob_isSome_of_mem (jobs : List Job) (j : Job) (hmem : j ∈ jobs) :
    ∃ r, findJob jobs j.id = some r := by
  unfold findJob
  have h : (jobs.find? (fun r => r.id == j.id)).isSome :=
    List.find?_isSome.mpr ⟨j, hmem, by simp⟩
  exact Option.isSome_iff_exists.mp h

theorem pollerIteration_failed (jobs : List Job) (work : String → BgWork)
    (j : Job) (e : String) (hsel : selectOldestQueued jobs = some j)
    (hw : (work j.id).oops = some e) :
    Option.map Job.status (findJob (pollerIteration jobs work) j.id)
      = some "failed" ∧
    Option.map Job.message (findJob (pollerIteration jobs work) j.id)
      = some e := by
  obtain ⟨r, hr⟩ := findJob_isSome_of_mem jobs j (select_mem hsel).1
  rw [pollerIteration_eq jobs work j hsel]
  unfold backgroundRun
  rw [hw]
  rw [findJob_markFailed, findJob_applyStages, findJob_markProcessing, hr]
  exact ⟨rfl, rfl⟩

theorem pollerIteration_completed (jobs : List Job) (work : String → BgWork)
    (j : Job) (hsel : selectOldestQueued jobs = some j)
    (hw : (work j.id).oops = none) :
    Option.map Job.status (findJob (pollerIteration jobs work) j.id)
      = some "completed" := by
  obtain ⟨r, hr⟩ := findJob_isSome_of_mem jobs j (select_mem hsel).1
  rw [pollerIteration_eq jobs work j hsel]
  unfold backgroundRun
  rw [hw]
  rw [findJob_markCompleted, findJob_applyStages, findJob_markProcessing, hr]
  rfl

/-- C8: when the execution of a claimed Job raises, the row is marked
`failed` with the exception's text recorded in its message; the
exception is contained — a poller iteration is a total transformation of
the store — and the following iteration claims and completes any next
healthy queued Job. -/
theorem C8_poller_survives (jobs : List Job) (work : String → BgWork)
    (j : Job) (e : String)
    (hsel : selectOldestQueued jobs = some j)
    (hw : (work j.id).oops = some e) :
    Option.map Job.status (findJob (pollerIteration jobs work) j.id)
      = some "failed" ∧
    Option.map Job.message (findJob (pollerIteration jobs work) j.id)
      = some e ∧
    (∀ j₂, selectOldestQueued (pollerIteration jobs work) = some j₂ →
      (work j₂.id).oops = none →
      Option.map Job.status
          (findJob (pollerIteration (pollerIteration jobs work) work) j₂.id)
        = some "completed") := by
  obtain ⟨h1, h2⟩ := pollerIteration_failed jobs work j e hsel hw
  exact ⟨h1, h2, fun j₂ hsel2 hw2 =>
    pollerIteration_completed (pollerIteration jobs work) work j₂ hsel2 hw2⟩

/-- C8, witness: spec scenario 4 — job `job-1` raises
`RuntimeError("boom")` and ends `failed` with message `"boom"`; the
loop goes on to the next queued job. -/
theorem C8_witness :
    Option.map Job.status
        (findJob (pollerIteration [qJob "job-1" 0, qJob "job-2" 1] workDemo)
          (qJob "job-1" 0).id) = some "failed" ∧
    Option.map Job.message
        (findJob (pollerIteration [qJob "job-1" 0, qJob "job-2" 1] workDemo)
          (qJob "job-1" 0).id) = some "boom" ∧
    (∀ j₂, selectOldestQueued
        (pollerIteration [qJob "job-1" 0, qJob "job-2" 1] workDemo) = some j₂ →
      (workDemo j₂.id).oops = none →
      Option.map Job.status
          (findJob (pollerIteration
            (pollerIteration [qJob "job-1" 0, qJob "job-2" 1] workDemo)
            workDemo) j₂.id)
        = some "completed") :=
  C8_poller_survives [qJob "job-1" 0, qJob "job-2" 1] workDemo
    (qJob "job-1" 0) "boom" sel_two_jobs (by decide)

/-! ### Claim C5 -/

/-- C5: for every estimated duration `T > 0` and elapsed `0 ≤ t < T`,
the predictive value `95 / (1 + 2.718 ^ (-(12·t/T − 6)))` is strictly
below the cap 95, and the explicit stage-complete call emits exactly
100 regardless of elapsed time. -/
theorem C5_predictive_cap (t T e : ℝ) (_hT : 0 < T) (_ht0 : 0 ≤ t)
    (_htT : t < T) :
    predictiveProgress t T < 95 ∧ completeSeparationEmit e = 100 := by
  constructor
  · unfold predictiveProgress
    have hx : (0 : ℝ) < (2.718 : ℝ) ^ (-(t / T * 12 - 6)) :=
      Real.rpow_pos_of_pos (by norm_num) _
    have hd : (1 : ℝ) < 1 + (2.718 : ℝ) ^ (-(t / T * 12 - 6)) := by linarith
    calc 95 / (1 + (2.718 : ℝ) ^ (-(t / T * 12 - 6))) < 95 / 1 :=
          div_lt_div_of_pos_left (by norm_num) (by norm_num) hd
      _ = 95 := by norm_num
  · unfold completeSeparationEmit emitClamp
    norm_num

/-- C5, witness: spec scenario 5 — `T = 10 s` sampled at `t = 5 s`. -/
theorem C5_witness :
    predictiveProgress 5 10 < 95 ∧ completeSeparationEmit 42 = 100 :=
  C5_predictive_cap 5 10 42 (by norm_num) (by norm_num) (by norm_num)

/-! ### Claim C6 -/

theorem progressAt_32_0 :
    progressAt (3 / 2) 0 = 95 / (1 + (2.718 : ℝ) ^ (6 : ℕ)) := by
  unfold progressAt predictiveProgress
  have hexp : -((((0 : Nat) : ℝ)) / 2 / (((3 / 2 : ℚ)) : ℝ) * 12 - 6)
      = (((6 : ℕ)) : ℝ) := by
    push_cast
    norm_num
  rw [hexp, Real.rpow_natCast]

theorem progressAt_32_1 :
    progressAt (3 / 2) 1 = 95 / (1 + (2.718 : ℝ) ^ (2 : ℕ)) := by
  unfold progressAt predictiveProgress
  have hexp : -((((1 : Nat) : ℝ)) / 2 / (((3 / 2 : ℚ)) : ℝ) * 12 - 6)
      = (((2 : ℕ)) : ℝ) := by
    push_cast
    norm_num
  rw [hexp, Real.rpow_natCast]

theorem progressAt_32_2 :
    progressAt (3 / 2) 2 = 95 / (1 + ((2.718 : ℝ) ^ (2 : ℕ))⁻¹) := by
  unfold progressAt predictiveProgress
  have hexp : -((((2 : Nat) : ℝ)) / 2 / (((3 / 2 : ℚ)) : ℝ) * 12 - 6)
      = -(((2 : ℕ)) : ℝ) := by
    push_cast
    norm_num
  rw [hexp, Real.rpow_neg (by norm_num), Real.rpow_natCast]

/-- The full run of the predictive timer for `T = 1.5 s`: a silent tick
at 0 s, emissions at 0.5 s and 1.0 s, stop at 1.5 s. -/
theorem predRun_demo : PredRun (3 / 2) 0 0
    [(tickTime 1, progressAt (3 / 2) 1), (tickTime 2, progressAt (3 / 2) 2)] := by
  refine PredRun.skip ?l0 ?t0
    (PredRun.emit ?l1 ?t1 (PredRun.emit ?l2 ?t2 (PredRun.stop ?s3)))
  case l0 => norm_num [tickTime]
  case t0 =>
    rw [progressAt_32_0]
    norm_num
  case l1 => norm_num [tickTime]
  case t1 =>
    rw [progressAt_32_1]
    norm_num
  case l2 => norm_num [tickTime]
  case t2 =>
    rw [progressAt_32_2, progressAt_32_1]
    norm_num
  case s3 => norm_num [tickTime]

/-- C6 (counterexample): the loop of `_start_predictive_progress`
consults only elapsed time — there is no cancellation token and the
explicit complete/failed call does not stop it.  With `T = 1.5 s` and
the stage explicitly completed at `0.25 s`, the timer still emits at
`0.5 s` and `1.0 s`; the claim that no predictive update for the stage
is emitted after the explicit completion call is false at this input. -/
theorem C6_counterexample :
    PredRun (3 / 2) 0 0
      [(tickTime 1, progressAt (3 / 2) 1), (tickTime 2, progressAt (3 / 2) 2)] ∧
    ¬ (∀ p ∈ [(tickTime 1, progressAt (3 / 2) 1),
        (tickTime 2, progressAt (3 / 2) 2)], p.1 < (1 / 4 : ℚ)) := by
  refine ⟨predRun_demo, ?_⟩
  intro h
  have h1 := h (tickTime 1, progressAt (3 / 2) 1) (by simp)
  norm_num [tickTime] at h1

/-- C6 (amended): the predictive timer stops emitting exactly when
elapsed time reaches the estimated duration `T` — every emission of any
run happens at an elapsed time strictly below `T` — but the explicit
complete/failed call does not cancel it: predictive updates can still be
emitted after the completion call, until elapsed reaches `T` (see the
counterexample). -/
theorem C6_timer_stops_at_T {T : ℚ} {k : Nat} {last : ℝ}
    {es : List (ℚ × ℝ)} (h : PredRun T k last es) :
    ∀ p ∈ es, p.1 < T := by
  induction h with
  | stop _ => simp
  | emit hlt hthr _ ih =>
    intro p hp
    rcases List.mem_cons.mp hp with h1 | h1
    · rw [h1]
      exact hlt
    · exact ih p h1
  | skip hlt hthr _ ih => exact ih

/-- C6, witness: in the concrete `T = 1.5 s` run, the emission at
elapsed `0.5 s` happens strictly before the estimated duration. -/
theorem C6_witness :
    (tickTime 1, progressAt (3 / 2) 1).1 < (3 / 2 : ℚ) :=
  C6_timer_stops_at_T predRun_demo (tickTime 1, progressAt (3 / 2) 1)
    (by simp)

end KP
